import Mathlib

/-!
Verification of the `zestack/env` configuration library.

The store (`environ` in the source) keeps environment variables in two
parallel slices `keys`/`values`; we embed it as a list of key/value pairs
(`Env`), which preserves insertion order and first-match index semantics.
All definitions below are shallow embeddings of the Go source; definitions
whose doc comment starts with `Spec-side` are transcribed from the
specification's words instead, for comparison against the code embedding.
-/

/-- The cached environment store: ordered key/value entries
(source: `environ.keys` / `environ.values`, kept as parallel slices). -/
abbrev Env := List (String × String)

/-- Embeds `environ.lookup`: find the first entry whose key matches
(`environ.index`) and return its value together with `len(v) > 0`
(source: environ.go lines 66-74). Missing keys give `("", false)`. -/
def envLookup : Env → String → String × Bool
  | [], _ => ("", false)
  | (k, v) :: rest, key =>
    if k == key then (v, decide (0 < v.length)) else envLookup rest key

/-- Embeds `environ.exists`: `environ.index(key) > -1`
(source: environ.go lines 77-81). -/
def envExists : Env → String → Bool
  | [], _ => false
  | (k, _) :: rest, key => k == key || envExists rest key

/-- One key/value insertion of `environ.Save`'s loop body: if the key is
already present, overwrite the value at its first index in place; otherwise
append at the end (source: environ.go lines 40-47). -/
def envSaveOne : Env → String → String → Env
  | [], key, value => [(key, value)]
  | (k, v) :: rest, key, value =>
    if k == key then (k, value) :: rest
    else (k, v) :: envSaveOne rest key value

/-- Embeds `environ.Save`: insert every pair of the batch in turn. The Go
code ranges over a map whose order is unspecified; the list order here
stands in for that range order (source: environ.go lines 37-48). -/
def envSave (e : Env) (data : List (String × String)) : Env :=
  data.foldl (fun acc p => envSaveOne acc p.1 p.2) e

/-- Embeds `environ.Clean`: both slices are reset to nil
(source: environ.go lines 96-101). -/
def envClean (_ : Env) : Env := []

/-- The key slice of the store (`environ.keys`). -/
def envKeys (e : Env) : List String := e.map Prod.fst

/-- The raw stored value at a key, read the way `environ.lookup` reads it
(value at the first matching index), without the emptiness flag. -/
def storedValue : Env → String → Option String
  | [], _ => none
  | (k, v) :: rest, key => if k == key then some v else storedValue rest key

/-- Operations that mutate the store (used to state the key-uniqueness
invariant over arbitrary operation sequences). -/
inductive StoreOp where
  | save (data : List (String × String))
  | clean
deriving DecidableEq

/-- Apply one store operation (`environ.Save` / `environ.Clean`). -/
def applyOp (e : Env) : StoreOp → Env
  | StoreOp.save data => envSave e data
  | StoreOp.clean => envClean e

/-- Run a sequence of store operations on the freshly created (empty)
store, as `New()` creates it. -/
def applyOps (ops : List StoreOp) : Env := ops.foldl applyOp []

/-- First-some choice on options (used to state last-wins merging). -/
def optOr : Option String → Option String → Option String
  | some v, _ => some v
  | none, b => b

/-- Spec-side: the value a single dotenv batch defines for a key — the
last binding for that key in the batch, if any. -/
def dataValue : List (String × String) → String → Option String
  | [], _ => none
  | p :: rest, key =>
    optOr (dataValue rest key) (if p.1 == key then some p.2 else none)

/-- Spec-side: the value defined for a key by the last source (in loading
order) that defines it, if any. -/
def sourcesValue : List (List (String × String)) → String → Option String
  | [], _ => none
  | s :: rest, key => optOr (sourcesValue rest key) (dataValue s key)

/-- Loading a sequence of sources into a fresh store: each source is merged
with `environ.Save`, in order (OS environment first, then each file). -/
def loadAll (sources : List (List (String × String))) : Env :=
  sources.foldl envSave []

/-- Go's `for _, v := range fallback { return v }; return zero`: the first
variadic fallback argument if any was given, else the zero value. -/
def firstOrDefault {α : Type} : List α → α → α
  | v :: _, _ => v
  | [], z => z

/-- Embeds `inner.String` over an arbitrary lookup capability (the `inner`
struct delegates to the closure installed by `New`/`newSigner`):
the raw value when lookup reports found, else the first fallback or `""`
(source: inner.go lines 32-40). -/
def innerString (lk : String → String × Bool) (key : String)
    (fallback : List String) : String :=
  if (lk key).2 then (lk key).1 else firstOrDefault fallback ""

/-- Outcome of reading one dotenv file (`godotenv.Read` on a single
filename): the file may be missing, unreadable/malformed, or parse to a
key/value batch. -/
inductive FileResult where
  | notExist
  | failed (msg : String)
  | parsed (data : List (String × String))

/-- The error returned by `environ.Load`, distinguishing the
`os.ErrNotExist` case that `loadEnv` swallows from other errors. -/
inductive LoadErr where
  | notExist
  | other (msg : String)
deriving DecidableEq

/-- The ambient world `InitWithDir` runs in: the outcome of
`filepath.Abs(dir)`, the OS environment (already split on the first `=`
and trimmed, as the loop at part_000 lines 73-79 produces it), and the
per-filename dotenv read outcomes. -/
structure World where
  absResult : Except String String
  osEnv : List (String × String)
  files : String → FileResult

/-- The package-level mutable state: the `root` path and the cached store. -/
structure GState where
  root : String
  store : Env
deriving DecidableEq

/-- Embeds `environ.Load` for one filename: read the file and `Save` the
data only when the read succeeded, returning the read error
(source: environ.go lines 28-34). -/
def goLoad (w : World) (st : Env) (filename : String) : Env × Option LoadErr :=
  match w.files filename with
  | FileResult.parsed data => (envSave st data, none)
  | FileResult.notExist => (st, some LoadErr.notExist)
  | FileResult.failed m => (st, some (LoadErr.other m))

/-- Embeds `loadEnv(dir, env)`: load `{dir}/.env{suffix}` then
`{dir}/.env{suffix}.local`, treating not-exist as non-fatal and stopping
on any other error (source: part_000 lines 101-114). `filepath.Join` is
modelled as concatenation with `/`, adequate for clean directory paths. -/
def goLoadEnv (w : World) (st : Env) (dir suffix : String) :
    Env × Option String :=
  let filename := dir ++ "/.env" ++ suffix
  match goLoad w st filename with
  | (st1, some (LoadErr.other m)) => (st1, some m)
  | (st1, _) =>
    match goLoad w st1 (filename ++ ".local") with
    | (st2, some (LoadErr.other m)) => (st2, some m)
    | (st2, _) => (st2, none)

/-- Models `strings.ToLower` character-wise (ASCII case mapping, which is
all `InitWithDir` needs for `APP_ENV` names). -/
def strToLower (s : String) : String :=
  String.mk (s.data.map Char.toLower)

/-- The `appEnv := String("APP_ENV", "prod")` read in `InitWithDir`,
against the store as loaded so far (source: part_000 line 89). -/
def appEnvOf (st : Env) : String :=
  innerString (envLookup st) "APP_ENV" ["prod"]

/-- Embeds `InitWithDir` (source: part_000 lines 53-99). `filepath.Abs`
runs before the rollback `defer` is installed, so when it fails the
previous state is returned untouched; after it succeeds, every error path
leaves `root` empty with a cleared store (the `defer`), and the success
path commits the resolved directory. -/
def initWithDir (w : World) (dir : String) (s : GState) :
    GState × Option String :=
  match w.absResult with
  | Except.error msg => (s, some msg)
  | Except.ok adir =>
    match goLoadEnv w (envSave (envClean []) w.osEnv) adir "" with
    | (_, some msg) => ({ root := "", store := [] }, some msg)
    | (st2, none) =>
      if 0 < (appEnvOf st2).length then
        match goLoadEnv w st2 adir ("." ++ strToLower (appEnvOf st2)) with
        | (_, some msg) => ({ root := "", store := [] }, some msg)
        | (st3, none) => ({ root := adir, store := st3 }, none)
      else ({ root := adir, store := st2 }, none)

/-- A world where path resolution itself fails (`filepath.Abs` returns an
error), used to exhibit the missing rollback on that path. -/
def wAbsFail : World :=
  { absResult := Except.error "abs failed"
    osEnv := []
    files := fun _ => FileResult.notExist }

/-- A world whose `.env` file exists but is malformed: loading it fails
with a propagated (non-not-exist) error. -/
def wBadEnvFile : World :=
  { absResult := Except.ok "/a"
    osEnv := []
    files := fun f => if f = "/a/.env" then FileResult.failed "bad syntax"
                      else FileResult.notExist }

/-- A world where `.env` and `.env.local` both define `FOO` with different
values, and no other source exists. -/
def wLayered : World :=
  { absResult := Except.ok "/app"
    osEnv := []
    files := fun f =>
      if f = "/app/.env" then FileResult.parsed [("FOO", "from-env")]
      else if f = "/app/.env.local" then FileResult.parsed [("FOO", "from-local")]
      else FileResult.notExist }

/-- One advance of the cursor returned by `environ.iter` (source:
environ.go lines 83-94). The cursor state is the number of calls already
made: each call atomically takes the next index (`atomic.AddInt32` on a
counter starting at -1) and the index is compared against the CURRENT
length of `e.keys`; the counter advances even on exhausted calls. -/
def envIterStep (e : Env) (pos : Nat) : (String × String × Bool) × Nat :=
  if h : pos < e.length then
    (((e.get ⟨pos, h⟩).1, (e.get ⟨pos, h⟩).2, true), pos + 1)
  else (("", "", false), pos + 1)

/-- The same cursor advance split at the read-lock acquisition: the bounds
check `index >= len(e.keys)` runs BEFORE `e.mu.RLock()`, so between the
check and the locked reads a concurrent `Clean` may replace the store.
`eAtCheck` is the store seen by the bounds check, `eAtRead` the store seen
by the slice reads; `none` models the out-of-bounds panic of
`e.keys[index]` (source: environ.go lines 85-93, 96-101). -/
def envIterStepRacy (eAtCheck eAtRead : Env) (pos : Nat) :
    Option (String × String × Bool) × Nat :=
  if pos < eAtCheck.length then
    (if h : pos < eAtRead.length then
       some ((eAtRead.get ⟨pos, h⟩).1, (eAtRead.get ⟨pos, h⟩).2, true)
     else none,
     pos + 1)
  else (some ("", "", false), pos + 1)

/-- Value of an all-digit run, most significant first. -/
def digitsToNat (ds : List Char) : Nat :=
  ds.foldl (fun a c => a * 10 + (c.toNat - 48)) 0

/-- Embeds `strconv.Atoi` (the parse used by `inner.Int` and
`inner.Duration`): an optional sign followed by a non-empty all-digit run,
valuing it in base 10; anything else, and values outside the signed 64-bit
range, are errors (`none`). -/
def atoi (s : String) : Option Int :=
  let p : Bool × List Char :=
    match s.data with
    | '-' :: rest => (true, rest)
    | '+' :: rest => (false, rest)
    | cs => (false, cs)
  if p.2.isEmpty then none
  else if p.2.all Char.isDigit then
    let v : Int :=
      if p.1 then -(digitsToNat p.2 : Int) else (digitsToNat p.2 : Int)
    if -(2 ^ 63) ≤ v ∧ v < 2 ^ 63 then some v else none
  else none

/-- Embeds `inner.Int`: parse the found value as a base-10 integer; on
lookup miss or parse failure fall back (source: inner.go lines 54-64). -/
def innerInt (lk : String → String × Bool) (key : String)
    (fallback : List Int) : Int :=
  match (if (lk key).2 then atoi (lk key).1 else none) with
  | some n => n
  | none => firstOrDefault fallback 0

/- ### Duration parsing (inner.Duration) -/

/-- Models `time.ParseDuration`'s `leadingInt`: consume leading digits
into the accumulator, erroring past the signed 64-bit range. -/
def leadingInt : Nat → List Char → Option (Nat × List Char)
  | x, [] => some (x, [])
  | x, c :: rest =>
    if c.isDigit then
      if x > (2 ^ 63 - 1) / 10 then none
      else
        let y := x * 10 + (c.toNat - 48)
        if y > 2 ^ 63 - 1 then none
        else leadingInt y rest
    else some (x, c :: rest)

/-- Models `leadingFraction`: consume fraction digits, tracking the scale
(a power of ten per digit) and freezing the value on overflow. -/
def leadingFraction : Nat → Nat → Bool → List Char → Nat × Nat × List Char
  | x, scale, _, [] => (x, scale, [])
  | x, scale, overflow, c :: rest =>
    if c.isDigit then
      if overflow then leadingFraction x scale overflow rest
      else if x > (2 ^ 63 - 1) / 10 then leadingFraction x scale true rest
      else
        let y := x * 10 + (c.toNat - 48)
        if y > 2 ^ 63 - 1 then leadingFraction x scale true rest
        else leadingFraction y (scale * 10) overflow rest
    else (x, scale, c :: rest)

/-- The optional `.fraction` after a component's integer part, returning
the fraction value, its scale, the rest, and whether digits were seen. -/
def parseFraction : List Char → Nat × Nat × List Char × Bool
  | '.' :: s2 =>
    match leadingFraction 0 1 false s2 with
    | (f, scale, rest) => (f, scale, rest, decide (rest.length ≠ s2.length))
  | s1 => (0, 1, s1, false)

/-- The unit token: the maximal run of characters that are neither digits
nor a dot. -/
def takeUnit : List Char → List Char × List Char
  | [] => ([], [])
  | c :: rest =>
    if c == '.' || c.isDigit then ([], c :: rest)
    else
      let r := takeUnit rest
      (c :: r.1, r.2)

/-- `time.ParseDuration`'s unit table, in nanoseconds. -/
def unitNanos (u : String) : Option Nat :=
  if u = "ns" then some 1
  else if u = "us" then some 1000
  else if u = "µs" then some 1000
  else if u = "μs" then some 1000
  else if u = "ms" then some 1000000
  else if u = "s" then some 1000000000
  else if u = "m" then some 60000000000
  else if u = "h" then some 3600000000000
  else none

/-- The component loop of `time.ParseDuration`: each round parses
`[0-9]*(\.[0-9]*)?` (at least one digit overall) followed by a known
unit, accumulating nanoseconds under 64-bit overflow checks. The
fractional contribution is the floor of `f * unit / scale` (Go computes
it in float64). Each round consumes at least one character, so fuel
`length + 1` always suffices. -/
def parseDurationLoop : Nat → Nat → List Char → Option Nat
  | _, d, [] => some d
  | 0, _, _ => none
  | fuel + 1, d, c :: cs =>
    if !(c == '.' || c.isDigit) then none
    else
      match leadingInt 0 (c :: cs) with
      | none => none
      | some (v, s1) =>
        match parseFraction s1 with
        | (f, scale, s2, post) =>
          if !decide (s1.length ≠ (c :: cs).length) && !post then none
          else
            match takeUnit s2 with
            | (u, s3) =>
              if u.isEmpty then none
              else
                match unitNanos (String.mk u) with
                | none => none
                | some unit =>
                  if v > (2 ^ 63 - 1) / unit then none
                  else
                    let w := v * unit + f * unit / scale
                    if w > 2 ^ 63 - 1 then none
                    else if d + w > 2 ^ 63 - 1 then none
                    else parseDurationLoop fuel (d + w) s3

/-- Models `time.ParseDuration` (the second parse path of
`inner.Duration`): optional sign, the special case `0`, then one or more
unit components summed; any violation is an error (`none`). The result is
in nanoseconds. -/
def parseDuration (str : String) : Option Int :=
  let sign : Bool × List Char :=
    match str.data with
    | '-' :: rest => (true, rest)
    | '+' :: rest => (false, rest)
    | s => (false, s)
  if sign.2 = ['0'] then some 0
  else if sign.2.isEmpty then none
  else
    match parseDurationLoop (sign.2.length + 1) 0 sign.2 with
    | none => none
    | some d => some (if sign.1 then -(d : Int) else (d : Int))

/-- Embeds `inner.Duration` (source: inner.go lines 66-81): on a found
value, first try `strconv.Atoi` (a plain integer is a duration count in
nanoseconds, the smallest native unit); only if that fails, try
`time.ParseDuration`; otherwise (and on a lookup miss) fall back. -/
def innerDuration (lk : String → String × Bool) (key : String)
    (fallback : List Int) : Int :=
  if (lk key).2 then
    match atoi (lk key).1 with
    | some n => n
    | none =>
      match parseDuration (lk key).1 with
      | some d => d
      | none => firstOrDefault fallback 0
  else firstOrDefault fallback 0

/- ### Scoped view ("Signer") -/

/-- Whether the first char list is a prefix of the second
(`strings.HasPrefix(s, p)` is `listHasPfx p.data s.data`). -/
def listHasPfx : List Char → List Char → Bool
  | [], _ => true
  | _ :: _, [] => false
  | a :: as, b :: bs => a == b && listHasPfx as bs

/-- Models `strings.HasPrefix(s, p)`. -/
def strHasPfx (s p : String) : Bool := listHasPfx p.data s.data

/-- Models `strings.TrimPrefix(s, p)`: drop the prefix when present,
otherwise return the string unchanged. -/
def strTrimPfx (s p : String) : String :=
  if strHasPfx s p then String.mk (s.data.drop p.data.length) else s

/-- The key rewriting shared by `signer.lookup2` / `signer.exists2`
(source: part_001 lines 271-279, 293-301): qualify with the category when
it is non-empty, then with the group when it is non-empty. -/
def signerKey (sP cat key : String) : String :=
  let key1 := if cat != "" then cat ++ "_" ++ key else key
  if sP != "" then sP ++ "_" ++ key1 else key1

/-- Embeds `signer.lookup2`: look the rewritten key up in the store. -/
def signerLookup2 (e : Env) (sP cat key : String) : String × Bool :=
  envLookup e (signerKey sP cat key)

/-- Embeds `signer.lookup` (source: part_001 lines 259-269): try the
category-qualified key; on a miss with a non-empty category, retry with
the category ignored. -/
def signerLookup (e : Env) (sP cat : String) (key : String) : String × Bool :=
  if (signerLookup2 e sP cat key).2 || cat == "" then
    signerLookup2 e sP cat key
  else signerLookup2 e sP "" key

/-- Embeds `signer.exists2`. -/
def signerExists2 (e : Env) (sP cat key : String) : Bool :=
  envExists e (signerKey sP cat key)

/-- Embeds `signer.exists` (source: part_001 lines 281-291). -/
def signerExists (e : Env) (sP cat : String) (key : String) : Bool :=
  if signerExists2 e sP cat key || cat == "" then
    signerExists2 e sP cat key
  else signerExists2 e sP "" key

/-- Spec-side: segments joined by underscores only where both sides are
non-empty — empty segments are omitted together with their separator. -/
def specJoinSegs : List String → String
  | [] => ""
  | s :: rest =>
    if s == "" then specJoinSegs rest
    else if specJoinSegs rest == "" then s
    else s ++ "_" ++ specJoinSegs rest

/-- Spec-side: the key resolution C5 describes for `exists` — try the
joined `{prefix}_{category}_{key}` form, then (category non-empty) the
joined `{prefix}_{key}` form. -/
def specSignerExists (e : Env) (sP cat key : String) : Bool :=
  if envExists e (specJoinSegs [sP, cat, key]) then true
  else if cat != "" then envExists e (specJoinSegs [sP, key]) else false

/-- The worked store of C5's example. -/
def cacheEnv : Env := [("CACHE_BOOK_DATABASE", "10"), ("CACHE_SCOPE", "app:")]

/-- The effective scoped prefix computed at the top of `signer.iter`
(source: part_001 lines 305-311). -/
def signerFullPfx (sP cat : String) : String :=
  let p1 := if sP != "" then sP ++ "_" else sP
  if cat != "" then p1 ++ (cat ++ "_") else p1

/-- Spec-side: the scoped prefix as C6 words it — segments joined with a
trailing underscore, empty segments omitted with their separators. -/
def specScopedPfx (sP cat : String) : String :=
  (if sP == "" then "" else sP ++ "_") ++ (if cat == "" then "" else cat ++ "_")

/-- Embeds one call of the closure returned by `signer.iter` (source:
part_001 lines 314-337) over a store `e`: loop over the underlying
cursor, yielding the next entry whose key starts with the full scoped
prefix, stripped. Entries matching only the bare group prefix are
recorded into `rk`/`rv` (the source even appends the named return `value`,
still `""`, instead of the entry's value) — but the replay branch that
would serve them requires `next == nil`, which never holds for a cursor
built by `signer.iter`, so the recordings are dead state. -/
def signerIterStep (e : Env) (sP fp : String) (pos : Nat)
    (rk rv : List String) :
    (String × String × Bool) × Nat × List String × List String :=
  if h : pos < e.length then
    if strHasPfx e[pos].1 fp then
      ((strTrimPfx e[pos].1 fp, e[pos].2, true), pos + 1, rk, rv)
    else if sP != "" && strHasPfx e[pos].1 sP then
      signerIterStep e sP fp (pos + 1)
        (rk ++ [strTrimPfx e[pos].1 sP]) (rv ++ [""])
    else
      signerIterStep e sP fp (pos + 1) rk rv
  else (("", "", false), pos + 1, rk, rv)
termination_by e.length - pos

/-- Drive the `signer.iter` closure to exhaustion, collecting every
yielded pair; the fuel bounds the number of yields (each one advances the
underlying cursor), `e.length + 1` always suffices. -/
def signerIterCollect (e : Env) (sP fp : String) :
    Nat → List String → List String → Nat → List (String × String)
  | _, _, _, 0 => []
  | pos, rk, rv, fuel + 1 =>
    match signerIterStep e sP fp pos rk rv with
    | ((k, v, true), pos2, rk2, rv2) =>
      (k, v) :: signerIterCollect e sP fp pos2 rk2 rv2 fuel
    | ((_, _, false), _, _, _) => []

/-- Everything a fresh `signer.iter` cursor yields over store `e`. -/
def signerIterAll (e : Env) (sP cat : String) : List (String × String) :=
  signerIterCollect e sP (signerFullPfx sP cat) 0 [] [] (e.length + 1)

/-- Spec-side: exactly the entries whose key starts with the full scoped
prefix, that prefix stripped from the key, the value unchanged. -/
def scopedEntriesSpec : Env → String → List (String × String)
  | [], _ => []
  | p :: rest, fp =>
    if strHasPfx p.1 fp then
      (strTrimPfx p.1 fp, p.2) :: scopedEntriesSpec rest fp
    else scopedEntriesSpec rest fp

/- ### Struct filling (inner.Fill) -/

/-- A struct field as `inner.fillStruct` sees it through reflection: a
field tagged `env:"tag"` whose string value converts via `cast.FromType`
(modelled as a partial conversion function, `none` meaning a conversion
error), an untagged struct field (recursed into), an untagged pointer
field (recursed into exactly when non-nil and pointing at a struct), or
any other field (skipped). -/
inductive GoField where
  | tagged (tag : String) (conv : String → Option String)
  | structField (fields : List GoField)
  | ptrStruct (nonNil : Bool) (fields : List GoField)
  | plain

/-- Embeds `inner.fillStruct` (source: inner.go lines 153-177) over a
lookup capability: fields are visited in declaration order; a tagged
field whose `i.String(tag)` value is non-empty is converted and the
assignment appended to `acc` (the mutations performed so far), a failing
conversion returns the accumulated assignments with the error
immediately; untagged structs and non-nil struct pointers are recursed
into. The error carries the failing field's tag. -/
def fillFields (lk : String → String × Bool) :
    List GoField → List (String × String) →
    List (String × String) × Option String
  | [], acc => (acc, none)
  | GoField.tagged tag conv :: rest, acc =>
    let osv := innerString lk tag []
    if osv != "" then
      match conv osv with
      | some v => fillFields lk rest (acc ++ [(tag, v)])
      | none => (acc, some tag)
    else fillFields lk rest acc
  | GoField.structField fs :: rest, acc =>
    match fillFields lk fs acc with
    | (acc2, none) => fillFields lk rest acc2
    | (acc2, some msg) => (acc2, some msg)
  | GoField.ptrStruct nonNil fs :: rest, acc =>
    if nonNil then
      match fillFields lk fs acc with
      | (acc2, none) => fillFields lk rest acc2
      | (acc2, some msg) => (acc2, some msg)
    else fillFields lk rest acc
  | GoField.plain :: rest, acc => fillFields lk rest acc

/-- Embeds `inner.Fill` (source: inner.go lines 143-151): a pointer to a
struct (its fields) is filled, anything else is an invalid-structure
error. -/
def goFill (lk : String → String × Bool) (input : Option (List GoField)) :
    List (String × String) × Option String :=
  match input with
  | some fields => fillFields lk fields []
  | none => ([], some "env: invalid structure")

/-- Spec-side: the tagged fields reached by `fillStruct`, flattened in
declaration order (recursing through untagged structs and non-nil struct
pointers). -/
def reachedTagged : List GoField → List (String × (String → Option String))
  | [] => []
  | GoField.tagged tag conv :: rest => (tag, conv) :: reachedTagged rest
  | GoField.structField fs :: rest => reachedTagged fs ++ reachedTagged rest
  | GoField.ptrStruct nonNil fs :: rest =>
    (if nonNil then reachedTagged fs else []) ++ reachedTagged rest
  | GoField.plain :: rest => reachedTagged rest

/-- Spec-side: process the reached tagged fields left to right — skip
fields whose looked-up value is empty, assign converted values, and stop
at the first failing conversion, keeping every assignment made before
it. -/
def processTagged (lk : String → String × Bool) :
    List (String × (String → Option String)) →
    List (String × String) × Option String
  | [] => ([], none)
  | (tag, conv) :: rest =>
    let osv := innerString lk tag []
    if osv != "" then
      match conv osv with
      | some v =>
        let r := processTagged lk rest
        ((tag, v) :: r.1, r.2)
      | none => ([], some tag)
    else processTagged lk rest

/- ### Helper lemmas about the store -/

theorem strLengthPosIff (v : String) : 0 < v.length ↔ v ≠ "" := by
  constructor
  · intro h hv
    subst hv
    simp [String.length] at h
  · intro h
    cases hv : v.length with
    | zero =>
      exact absurd (String.ext (List.length_eq_zero.mp hv)) h
    | succ n => omega

theorem memKeysOfMem {e : Env} {k v : String} (h : (k, v) ∈ e) :
    k ∈ envKeys e := by
  simpa [envKeys] using List.mem_map_of_mem Prod.fst h

theorem envLookupEqTrueIff (e : Env) (key v : String)
    (hnd : (envKeys e).Nodup) :
    envLookup e key = (v, true) ↔ ((key, v) ∈ e ∧ v ≠ "") := by
  induction e with
  | nil => simp [envLookup]
  | cons p rest ih =>
    obtain ⟨k, w⟩ := p
    simp only [envKeys, List.map_cons, List.nodup_cons] at hnd
    by_cases hk : k = key
    · subst hk
      have hkey : ¬(k, v) ∈ rest := fun hm => hnd.1 (memKeysOfMem hm)
      simp only [envLookup, beq_self_eq_true, if_true]
      constructor
      · intro h
        have h1 : w = v := congrArg Prod.fst h
        have h2 : decide (0 < w.length) = true := congrArg Prod.snd h
        subst h1
        exact ⟨List.mem_cons_self _ _, (strLengthPosIff w).mp (of_decide_eq_true h2)⟩
      · rintro ⟨hm, hne⟩
        rcases List.mem_cons.mp hm with h1 | h1
        · have hv : v = w := congrArg Prod.snd h1
          subst hv
          rw [decide_eq_true ((strLengthPosIff v).mpr hne)]
        · exact absurd h1 hkey
    · have hbeq : (k == key) = false := beq_eq_false_iff_ne.mpr hk
      simp only [envLookup, hbeq, Bool.false_eq_true, if_false]
      rw [ih hnd.2]
      constructor
      · rintro ⟨h1, h2⟩
        exact ⟨List.mem_cons_of_mem _ h1, h2⟩
      · rintro ⟨hm, h2⟩
        rcases List.mem_cons.mp hm with h1 | h1
        · exact absurd (congrArg Prod.fst h1).symm hk
        · exact ⟨h1, h2⟩

theorem envLookupEmptyVal (e : Env) (key : String)
    (hnd : (envKeys e).Nodup) (h : (key, "") ∈ e) :
    envLookup e key = ("", false) := by
  induction e with
  | nil => cases h
  | cons p rest ih =>
    obtain ⟨k, w⟩ := p
    simp only [envKeys, List.map_cons, List.nodup_cons] at hnd
    rcases List.mem_cons.mp h with h1 | h1
    · have hk : key = k := congrArg Prod.fst h1
      have hw : ("" : String) = w := congrArg Prod.snd h1
      subst hk
      rw [← hw]
      simp [envLookup]
    · by_cases hk : k = key
      · subst hk
        exact absurd (memKeysOfMem h1) hnd.1
      · have hbeq : (k == key) = false := beq_eq_false_iff_ne.mpr hk
        simp only [envLookup, hbeq, Bool.false_eq_true, if_false]
        exact ih hnd.2 h1

theorem envExistsIff (e : Env) (key : String) :
    envExists e key = true ↔ ∃ w, (key, w) ∈ e := by
  induction e with
  | nil => simp [envExists]
  | cons p rest ih =>
    obtain ⟨k, w⟩ := p
    simp only [envExists, Bool.or_eq_true, beq_iff_eq, ih, List.mem_cons,
      Prod.mk.injEq]
    constructor
    · rintro (h | ⟨u, hu⟩)
      · exact ⟨w, Or.inl ⟨h.symm, rfl⟩⟩
      · exact ⟨u, Or.inr hu⟩
    · rintro ⟨u, ⟨h1, _⟩ | hu⟩
      · exact Or.inl h1.symm
      · exact Or.inr ⟨u, hu⟩

/-- Claim C1: for a store with unique keys, `lookup(key)` returns
`(value, true)` iff the key is present with a non-empty value; a key
present with an empty value makes `lookup` return `("", false)` while
`exists` still returns `true`; and `exists` is true exactly when the key
is present, regardless of value emptiness. -/
theorem claim1_lookup_exists (e : Env) (key v : String)
    (hnd : (envKeys e).Nodup) :
    (envLookup e key = (v, true) ↔ ((key, v) ∈ e ∧ v ≠ "")) ∧
    ((key, "") ∈ e → envLookup e key = ("", false) ∧ envExists e key = true) ∧
    (envExists e key = true ↔ ∃ w, (key, w) ∈ e) := by
  refine ⟨envLookupEqTrueIff e key v hnd, ?_, envExistsIff e key⟩
  intro h
  exact ⟨envLookupEmptyVal e key hnd h, (envExistsIff e key).mpr ⟨"", h⟩⟩

/-- Witness for C1 at a concrete store: key `A` saved with an empty value
is reported absent by lookup but present by exists. -/
theorem claim1_lookup_exists_witness :
    envLookup [("A", ""), ("B", "2")] "A" = ("", false) ∧
    envExists [("A", ""), ("B", "2")] "A" = true :=
  (claim1_lookup_exists [("A", ""), ("B", "2")] "A" "x" (by decide)).2.1
    (by decide)

/- ### Key uniqueness (C4) -/

theorem envExistsKeysMem (e : Env) (key : String) :
    envExists e key = true ↔ key ∈ envKeys e := by
  induction e with
  | nil => simp [envExists, envKeys]
  | cons p rest ih =>
    obtain ⟨k, w⟩ := p
    simp only [envExists, envKeys, List.map_cons, Bool.or_eq_true,
      beq_iff_eq, List.mem_cons, ih, envKeys]
    constructor
    · rintro (h | h)
      · exact Or.inl h.symm
      · exact Or.inr h
    · rintro (h | h)
      · exact Or.inl h.symm
      · exact Or.inr h

theorem keysSaveOne (e : Env) (k v : String) :
    envKeys (envSaveOne e k v) =
      if envExists e k = true then envKeys e else envKeys e ++ [k] := by
  induction e with
  | nil => simp [envSaveOne, envExists, envKeys]
  | cons p rest ih =>
    obtain ⟨a, b⟩ := p
    cases hak : (a == k) with
    | true =>
      simp [envSaveOne, envExists, envKeys, hak]
    | false =>
      simp only [envSaveOne, hak, Bool.false_eq_true, if_false, envExists,
        Bool.false_or, envKeys, List.map_cons]
      rw [show envKeys (envSaveOne rest k v) =
            List.map Prod.fst (envSaveOne rest k v) from rfl] at ih
      rw [ih]
      cases hex : envExists rest k with
      | true => simp [envKeys]
      | false => simp [envKeys]

theorem envKeysNodupSaveOne (e : Env) (k v : String)
    (hnd : (envKeys e).Nodup) : (envKeys (envSaveOne e k v)).Nodup := by
  rw [keysSaveOne]
  cases hex : envExists e k with
  | true => simpa using hnd
  | false =>
    have hkm : k ∉ envKeys e := fun hm => by
      rw [(envExistsKeysMem e k).mpr hm] at hex
      cases hex
    simp only [Bool.false_eq_true, if_false, List.nodup_append,
      List.nodup_singleton, true_and]
    refine ⟨hnd, ?_⟩
    intro a ha hb
    rw [List.mem_singleton.mp hb] at ha
    exact hkm ha

theorem envKeysNodupSave (data : List (String × String)) :
    ∀ e : Env, (envKeys e).Nodup → (envKeys (envSave e data)).Nodup := by
  induction data with
  | nil => intro e h; exact h
  | cons p rest ih =>
    intro e h
    exact ih (envSaveOne e p.1 p.2) (envKeysNodupSaveOne e p.1 p.2 h)

theorem envKeysNodupOps (ops : List StoreOp) :
    ∀ e : Env, (envKeys e).Nodup → (envKeys (ops.foldl applyOp e)).Nodup := by
  induction ops with
  | nil => intro e h; exact h
  | cons op rest ih =>
    intro e h
    cases op with
    | save data => exact ih _ (envKeysNodupSave data e h)
    | clean => exact ih _ (by simp [applyOp, envClean, envKeys])

/-- Claim C4: key uniqueness is an invariant of the store — after any
sequence of `Save`/`Clean` operations on a fresh store, no two entries
share a key; `Save` of a present key overwrites in place (the key slice
is unchanged) and appends otherwise; and saving `A=1` then `A=2` leaves
exactly one entry for `A`, holding `2`. -/
theorem claim4_unique_keys :
    (∀ ops : List StoreOp, (envKeys (applyOps ops)).Nodup) ∧
    (∀ (e : Env) (k v : String),
      envKeys (envSaveOne e k v) =
        if envExists e k = true then envKeys e else envKeys e ++ [k]) ∧
    envSave (envSave [] [("A", "1")]) [("A", "2")] = [("A", "2")] := by
  refine ⟨fun ops => envKeysNodupOps ops [] (by simp [envKeys]), keysSaveOne, by decide⟩

/- ### Layered later-wins loading (C2) -/

theorem optOrNoneRight (a : Option String) : optOr a none = a := by
  cases a <;> rfl

theorem optOrAssoc (a b c : Option String) :
    optOr (optOr a b) c = optOr a (optOr b c) := by
  cases a <;> cases b <;> rfl

theorem storedValueSaveOne (e : Env) (k v key : String) :
    storedValue (envSaveOne e k v) key =
      if k == key then some v else storedValue e key := by
  induction e with
  | nil => simp [envSaveOne, storedValue]
  | cons p rest ih =>
    obtain ⟨a, b⟩ := p
    cases hak : (a == k) with
    | true =>
      have ha : a = k := eq_of_beq hak
      subst ha
      cases hk2 : (a == key) with
      | true => simp [envSaveOne, storedValue, hk2]
      | false => simp [envSaveOne, storedValue, hk2]
    | false =>
      cases hkey : (a == key) with
      | true =>
        have ha : a = key := eq_of_beq hkey
        have hkk : (k == key) = false := by
          cases h : (k == key) with
          | true =>
            rw [eq_of_beq h] at hak
            rw [← ha] at hak
            simp at hak
          | false => rfl
        simp [envSaveOne, storedValue, hak, hkey, hkk]
      | false =>
        simp [envSaveOne, storedValue, hak, hkey, ih]

theorem storedValueSave (data : List (String × String)) :
    ∀ (e : Env) (key : String),
      storedValue (envSave e data) key =
        optOr (dataValue data key) (storedValue e key) := by
  induction data with
  | nil => intro e key; simp [envSave, dataValue, optOr]
  | cons p rest ih =>
    intro e key
    have h1 : envSave e (p :: rest) = envSave (envSaveOne e p.1 p.2) rest := rfl
    rw [h1, ih, storedValueSaveOne]
    have h2 : (if p.1 == key then some p.2 else storedValue e key) =
        optOr (if p.1 == key then some p.2 else none) (storedValue e key) := by
      cases h : (p.1 == key) <;> simp [optOr]
    rw [h2, ← optOrAssoc]
    rfl

theorem storedValueFoldSources (sources : List (List (String × String))) :
    ∀ (e : Env) (key : String),
      storedValue (sources.foldl envSave e) key =
        optOr (sourcesValue sources key) (storedValue e key) := by
  induction sources with
  | nil => intro e key; simp [sourcesValue, optOr]
  | cons s rest ih =>
    intro e key
    have h1 : (s :: rest).foldl envSave e = rest.foldl envSave (envSave e s) := rfl
    rw [h1, ih, storedValueSave]
    rw [← optOrAssoc]
    rfl

/-- Claim C2: layered loading is later-wins. Merging any sequence of
sources (the OS environment, then each dotenv file, in load order) into a
fresh store with `Save` leaves, for every key, exactly the value of the
last source that defines it; and a concrete `InitWithDir` run where both
`.env` and `.env.local` define `FOO` commits the `.env.local` value. -/
theorem claim2_later_wins :
    (∀ (sources : List (List (String × String))) (key : String),
      storedValue (loadAll sources) key = sourcesValue sources key) ∧
    initWithDir wLayered "app" { root := "", store := [] } =
      ({ root := "/app", store := [("FOO", "from-local")] }, none) ∧
    storedValue [("FOO", "from-local")] "FOO" = some "from-local" := by
  refine ⟨?_, by decide, by decide⟩
  intro sources key
  have h := storedValueFoldSources sources [] key
  rw [show storedValue ([] : Env) key = none from rfl, optOrNoneRight] at h
  exact h

/- ### Initialization rollback (C3) -/

/-- Counterexample to C3 as stated: when `filepath.Abs` fails, the
rollback `defer` is not yet installed, so `InitWithDir` returns an error
while the previous non-empty root and non-empty store survive. -/
theorem claim3_cex :
    (initWithDir wAbsFail "d" { root := "OLD", store := [("K", "V")] }).2 =
      some "abs failed" ∧
    (initWithDir wAbsFail "d" { root := "OLD", store := [("K", "V")] }).1 =
      { root := "OLD", store := [("K", "V")] } ∧
    ("OLD" : String) ≠ "" := by
  exact ⟨rfl, rfl, by decide⟩

/-- Claim C3 (amended): once the directory was resolved to an absolute
path, `InitWithDir` is atomic — every error return leaves the root empty
and the store cleared (so every lookup misses), and a success return
commits the resolved absolute path as the root. -/
theorem claim3_amended (w : World) (dir adir : String) (s : GState)
    (habs : w.absResult = Except.ok adir) :
    (((initWithDir w dir s).2).isSome = true →
      (initWithDir w dir s).1 = { root := "", store := [] } ∧
      ∀ key, envLookup (initWithDir w dir s).1.store key = ("", false)) ∧
    ((initWithDir w dir s).2 = none → (initWithDir w dir s).1.root = adir) := by
  cases h1 : goLoadEnv w (envSave (envClean []) w.osEnv) adir "" with
  | mk st2 err =>
    cases err with
    | some msg => simp [initWithDir, habs, h1, envLookup]
    | none =>
      by_cases h2 : 0 < (appEnvOf st2).length
      · cases h3 : goLoadEnv w st2 adir ("." ++ strToLower (appEnvOf st2)) with
        | mk st3 err2 =>
          cases err2 with
          | some msg => simp [initWithDir, habs, h1, h2, h3, envLookup]
          | none => simp [initWithDir, habs, h1, h2, h3]
      · simp [initWithDir, habs, h1, h2]

/-- Witness for the amended C3: a world whose `.env` file is malformed
makes `InitWithDir` fail and roll the state back to empty. -/
theorem claim3_amended_witness :
    (initWithDir wBadEnvFile "a" { root := "OLD", store := [("K", "V")] }).1 =
      { root := "", store := [] } :=
  (((claim3_amended wBadEnvFile "a" "/a"
      { root := "OLD", store := [("K", "V")] } rfl).1) (by decide)).1

/- ### Iteration cursor (C8, C9) -/

/-- Counterexample to C8 as stated: a cursor over a one-entry store yields
the entry, then signals exhaustion — but after `Save` grows the store to
three entries, the SAME cursor's next call yields again (index 2 is now in
bounds), so exhaustion is not permanent under growth. -/
theorem claim8_cex :
    (envIterStep [("A", "1")] 0).1 = ("A", "1", true) ∧
    (envIterStep [("A", "1")] 0).2 = 1 ∧
    (envIterStep [("A", "1")] 1).1 = ("", "", false) ∧
    (envIterStep [("A", "1")] 1).2 = 2 ∧
    (envIterStep (envSave [("A", "1")] [("B", "2"), ("C", "3")]) 2).1 =
      ("C", "3", true) := by
  refine ⟨by decide, by decide, by decide, by decide, by decide⟩

/-- Claim C8 (amended): a cursor call at position `n` yields the store's
`n`-th entry (ascending insertion order) when `n` is in bounds and signals
exhaustion otherwise, always advancing the position; hence after
exhaustion it keeps returning `ok=false` only for as long as the store's
length stays at or below the cursor position — a `Save` that grows the
store past already-consumed positions makes the same cursor yield again. -/
theorem claim8_amended (e : Env) (n : Nat) :
    ((envIterStep e n).2 = n + 1) ∧
    (e.length ≤ n → (envIterStep e n).1 = ("", "", false)) ∧
    (∀ h : n < e.length,
      (envIterStep e n).1 = ((e.get ⟨n, h⟩).1, (e.get ⟨n, h⟩).2, true)) := by
  refine ⟨?_, ?_, ?_⟩
  · unfold envIterStep
    split <;> rfl
  · intro hle
    unfold envIterStep
    rw [dif_neg (by omega)]
  · intro h
    unfold envIterStep
    rw [dif_pos h]

/-- Witness for the amended C8: on a one-entry store, position 0 yields
the entry and position 1 is exhausted. -/
theorem claim8_amended_witness :
    (envIterStep [("A", "1")] 1).1 = ("", "", false) ∧
    (envIterStep [("A", "1")] 0).1 = ("A", "1", true) :=
  ⟨(claim8_amended [("A", "1")] 1).2.1 (by decide),
   (claim8_amended [("A", "1")] 0).2.2 (by decide)⟩

/- ### Scoped view resolution and iteration (C5, C6) -/

theorem strAppendNeLeft (a b : String) (ha : a ≠ "") : a ++ b ≠ "" := by
  intro h
  have hlen := congrArg String.length h
  rw [String.length_append] at hlen
  have ha' : 0 < a.length := (strLengthPosIff a).mpr ha
  rw [show ("" : String).length = 0 from rfl] at hlen
  omega

theorem specJoinTwo (sP key : String) (hk : key ≠ "") :
    specJoinSegs [sP, key] = if sP == "" then key else sP ++ "_" ++ key := by
  have hkb : (key == "") = false := beq_eq_false_iff_ne.mpr hk
  cases hsp : sP == "" with
  | true => simp [specJoinSegs, hkb, hsp]
  | false => simp [specJoinSegs, hkb, hsp]

theorem specJoinThree (sP cat key : String) (hc : cat ≠ "") (hk : key ≠ "") :
    specJoinSegs [sP, cat, key] =
      if sP == "" then cat ++ "_" ++ key
      else sP ++ "_" ++ (cat ++ "_" ++ key) := by
  have hkb : (key == "") = false := beq_eq_false_iff_ne.mpr hk
  have hcb : (cat == "") = false := beq_eq_false_iff_ne.mpr hc
  have hinner : ((cat ++ "_" ++ key : String) == "") = false :=
    beq_eq_false_iff_ne.mpr (strAppendNeLeft _ key (strAppendNeLeft cat "_" hc))
  cases hsp : sP == "" with
  | true => simp [specJoinSegs, hkb, hcb, hsp, hinner]
  | false => simp [specJoinSegs, hkb, hcb, hsp, hinner]

theorem signerKeyEqJoin (sP cat key : String) (hc : cat ≠ "") (hk : key ≠ "") :
    signerKey sP cat key = specJoinSegs [sP, cat, key] := by
  rw [specJoinThree sP cat key hc hk]
  have hcb : (cat != "") = true := bne_iff_ne.mpr hc
  by_cases hsp : sP = ""
  · subst hsp
    simp [signerKey, hcb]
  · have hspb : (sP != "") = true := bne_iff_ne.mpr hsp
    have hspq : (sP == "") = false := beq_eq_false_iff_ne.mpr hsp
    simp [signerKey, hcb, hspb, hspq]

theorem signerKeyEqNoCat (sP key : String) (hk : key ≠ "") :
    signerKey sP "" key = specJoinSegs [sP, key] := by
  rw [specJoinTwo sP key hk]
  by_cases hsp : sP = ""
  · subst hsp
    simp [signerKey]
  · have hspb : (sP != "") = true := bne_iff_ne.mpr hsp
    have hspq : (sP == "") = false := beq_eq_false_iff_ne.mpr hsp
    simp [signerKey, hspb, hspq]

/-- Counterexample to C5 as stated: with the empty key, the code builds
`CACHE_BOOK_` (underscore kept even though the right side is empty), while
the claim's join rule ("underscores only where both sides are non-empty")
would resolve `CACHE_BOOK` then `CACHE` — so on a store holding only
`CACHE_BOOK_`, the code's scoped exists succeeds where the claim's
described resolution fails. -/
theorem claim5_cex :
    signerExists [("CACHE_BOOK_", "v")] "CACHE" "BOOK" "" = true ∧
    specSignerExists [("CACHE_BOOK_", "v")] "CACHE" "BOOK" "" = false :=
  ⟨by decide, by decide⟩

/-- Claim C5 (amended): for a NON-EMPTY key and non-empty category, the
scoped view first resolves the joined `{prefix}_{category}_{key}` form
(underscores only between non-empty segments), and on a miss falls back
to the joined `{prefix}_{key}` form — for both lookup and exists; with
stored `CACHE_BOOK_DATABASE=10` and `CACHE_SCOPE=app:`, the view
`Signed("CACHE","BOOK")` returns 10 for `Int("DATABASE")` (category hit)
and `app:` for `String("SCOPE")` (category miss, group fallback). -/
theorem claim5_amended (e : Env) (sP cat key : String)
    (hc : cat ≠ "") (hk : key ≠ "") :
    signerKey sP cat key = specJoinSegs [sP, cat, key] ∧
    signerKey sP "" key = specJoinSegs [sP, key] ∧
    signerLookup e sP cat key =
      (if (envLookup e (specJoinSegs [sP, cat, key])).2 then
         envLookup e (specJoinSegs [sP, cat, key])
       else envLookup e (specJoinSegs [sP, key])) ∧
    signerExists e sP cat key =
      (envExists e (specJoinSegs [sP, cat, key]) ||
        envExists e (specJoinSegs [sP, key])) ∧
    innerInt (signerLookup cacheEnv "CACHE" "BOOK") "DATABASE" [] = 10 ∧
    innerString (signerLookup cacheEnv "CACHE" "BOOK") "SCOPE" [] = "app:" := by
  have hkey3 := signerKeyEqJoin sP cat key hc hk
  have hkey2 := signerKeyEqNoCat sP key hk
  have hcq : (cat == "") = false := beq_eq_false_iff_ne.mpr hc
  refine ⟨hkey3, hkey2, ?_, ?_, by decide, by decide⟩
  · unfold signerLookup signerLookup2
    rw [hkey3, hkey2, hcq]
    cases hb : (envLookup e (specJoinSegs [sP, cat, key])).2 with
    | true => simp [hb]
    | false => simp [hb]
  · unfold signerExists signerExists2
    rw [hkey3, hkey2, hcq]
    cases hb : envExists e (specJoinSegs [sP, cat, key]) with
    | true => simp [hb]
    | false => simp [hb]

/-- Witness for the amended C5 at the worked example: the category hit
returns the category-qualified value. -/
theorem claim5_amended_witness :
    innerInt (signerLookup cacheEnv "CACHE" "BOOK") "DATABASE" [] = 10 :=
  (claim5_amended cacheEnv "CACHE" "BOOK" "DATABASE"
    (by decide) (by decide)).2.2.2.2.1

theorem fullPfxEqSpec (sP cat : String) :
    signerFullPfx sP cat = specScopedPfx sP cat := by
  unfold signerFullPfx specScopedPfx
  by_cases h1 : sP = ""
  · subst h1
    by_cases h2 : cat = ""
    · subst h2
      rfl
    · have hb2 : (cat == "") = false := beq_eq_false_iff_ne.mpr h2
      have hn2 : (cat != "") = true := bne_iff_ne.mpr h2
      simp [hb2, hn2]
  · have hb1 : (sP == "") = false := beq_eq_false_iff_ne.mpr h1
    have hn1 : (sP != "") = true := bne_iff_ne.mpr h1
    by_cases h2 : cat = ""
    · subst h2
      simp [hb1, hn1]
    · have hb2 : (cat == "") = false := beq_eq_false_iff_ne.mpr h2
      have hn2 : (cat != "") = true := bne_iff_ne.mpr h2
      simp [hb1, hn1, hb2, hn2, String.append_assoc]

theorem signerIterStepSpecAux (e : Env) (sP fp : String) :
    ∀ (fuel pos : Nat) (rk rv : List String), e.length - pos ≤ fuel →
      (((signerIterStep e sP fp pos rk rv).1.2.2 = true →
        scopedEntriesSpec (e.drop pos) fp =
          ((signerIterStep e sP fp pos rk rv).1.1,
            (signerIterStep e sP fp pos rk rv).1.2.1) ::
            scopedEntriesSpec (e.drop (signerIterStep e sP fp pos rk rv).2.1) fp ∧
        pos < (signerIterStep e sP fp pos rk rv).2.1 ∧
        (signerIterStep e sP fp pos rk rv).2.1 ≤ e.length) ∧
      ((signerIterStep e sP fp pos rk rv).1.2.2 = false →
        scopedEntriesSpec (e.drop pos) fp = [])) := by
  intro fuel
  induction fuel with
  | zero =>
    intro pos rk rv hf
    have hge : e.length ≤ pos := by omega
    have hstep : signerIterStep e sP fp pos rk rv =
        (("", "", false), pos + 1, rk, rv) := by
      conv_lhs => rw [signerIterStep]
      rw [dif_neg (by omega)]
    rw [hstep]
    dsimp only
    refine ⟨fun ht => by simp at ht, fun _ => ?_⟩
    rw [List.drop_eq_nil_of_le hge]
    rfl
  | succ fuel ih =>
    intro pos rk rv hf
    by_cases h : pos < e.length
    · have hdrop : e.drop pos = e[pos] :: e.drop (pos + 1) :=
        List.drop_eq_getElem_cons h
      cases hm : strHasPfx e[pos].1 fp with
      | true =>
        have hstep : signerIterStep e sP fp pos rk rv =
            ((strTrimPfx e[pos].1 fp, e[pos].2, true), pos + 1, rk, rv) := by
          conv_lhs => rw [signerIterStep]
          rw [dif_pos h, if_pos hm]
        rw [hstep]
        dsimp only
        refine ⟨fun _ => ⟨?_, by omega, by omega⟩,
          fun hfalse => by simp at hfalse⟩
        rw [hdrop, scopedEntriesSpec, if_pos hm]
      | false =>
        have hdropSpec : scopedEntriesSpec (e.drop pos) fp =
            scopedEntriesSpec (e.drop (pos + 1)) fp := by
          rw [hdrop, scopedEntriesSpec, if_neg (by simp [hm])]
        cases hrec : (sP != "" && strHasPfx e[pos].1 sP) with
        | true =>
          have hstep : signerIterStep e sP fp pos rk rv =
              signerIterStep e sP fp (pos + 1)
                (rk ++ [strTrimPfx e[pos].1 sP]) (rv ++ [""]) := by
            conv_lhs => rw [signerIterStep]
            rw [dif_pos h, if_neg (by simp [hm]), if_pos hrec]
          rw [hstep, hdropSpec]
          have hrec2 := ih (pos + 1)
            (rk ++ [strTrimPfx e[pos].1 sP]) (rv ++ [""]) (by omega)
          refine ⟨fun ht => ?_, fun hf2 => hrec2.2 hf2⟩
          obtain ⟨h1, h2, h3⟩ := hrec2.1 ht
          exact ⟨h1, by omega, h3⟩
        | false =>
          have hstep : signerIterStep e sP fp pos rk rv =
              signerIterStep e sP fp (pos + 1) rk rv := by
            conv_lhs => rw [signerIterStep]
            rw [dif_pos h, if_neg (by simp [hm]), if_neg (by simp [hrec])]
          rw [hstep, hdropSpec]
          have hrec2 := ih (pos + 1) rk rv (by omega)
          refine ⟨fun ht => ?_, fun hf2 => hrec2.2 hf2⟩
          obtain ⟨h1, h2, h3⟩ := hrec2.1 ht
          exact ⟨h1, by omega, h3⟩
    · have hge : e.length ≤ pos := by omega
      have hstep : signerIterStep e sP fp pos rk rv =
          (("", "", false), pos + 1, rk, rv) := by
        conv_lhs => rw [signerIterStep]
        rw [dif_neg (by omega)]
      rw [hstep]
      dsimp only
      refine ⟨fun ht => by simp at ht, fun _ => ?_⟩
      rw [List.drop_eq_nil_of_le hge]
      rfl

theorem signerIterCollectSpec (e : Env) (sP fp : String) :
    ∀ (fuel pos : Nat) (rk rv : List String), e.length - pos < fuel →
      signerIterCollect e sP fp pos rk rv fuel =
        scopedEntriesSpec (e.drop pos) fp := by
  intro fuel
  induction fuel with
  | zero => intro pos rk rv hf; omega
  | succ fuel ih =>
    intro pos rk rv hf
    rcases hstep : signerIterStep e sP fp pos rk rv with
      ⟨⟨k, v, ok⟩, pos2, rk2, rv2⟩
    have hs := signerIterStepSpecAux e sP fp e.length pos rk rv (by omega)
    rw [hstep] at hs
    dsimp only at hs
    cases ok with
    | true =>
      obtain ⟨heq, hlt, hle⟩ := hs.1 rfl
      simp only [signerIterCollect, hstep]
      rw [ih pos2 rk2 rv2 (by omega), heq]
    | false =>
      have heq := hs.2 rfl
      simp only [signerIterCollect, hstep]
      rw [heq]

/-- Claim C6: a scoped view's iteration yields exactly the underlying
entries whose key starts with the full scoped prefix (group and category
segments each followed by an underscore, empty segments omitted), with
that prefix stripped and the value unchanged; entries matching only the
bare group prefix are recorded into a dead buffer and never yielded. -/
theorem claim6_scoped_iteration (e : Env) (sP cat : String) :
    signerIterAll e sP cat = scopedEntriesSpec e (signerFullPfx sP cat) ∧
    signerFullPfx sP cat = specScopedPfx sP cat := by
  constructor
  · have h := signerIterCollectSpec e sP (signerFullPfx sP cat)
      (e.length + 1) 0 [] [] (by omega)
    rw [signerIterAll, h, List.drop_zero]
  · exact fullPfxEqSpec sP cat

/- ### Duration accessor (C7) -/

/-- Claim C7: `Duration` has two distinct, ordered parse paths — a plain
base-10 integer parse is attempted first and its result is read in
nanoseconds (the smallest native unit); only when it fails is the value
parsed as a structured duration string; when both fail the first fallback
argument (else zero) is returned. A stored `"5s"` yields five seconds
(5000000000 ns) while a stored `"5"` yields 5 ns. -/
theorem claim7_duration_paths :
    (∀ (st : Env) (key : String) (fb : List Int) (n : Int),
      (envLookup st key).2 = true → atoi (envLookup st key).1 = some n →
      innerDuration (envLookup st) key fb = n) ∧
    (∀ (st : Env) (key : String) (fb : List Int) (d : Int),
      (envLookup st key).2 = true → atoi (envLookup st key).1 = none →
      parseDuration (envLookup st key).1 = some d →
      innerDuration (envLookup st) key fb = d) ∧
    (∀ (st : Env) (key : String) (v : Int),
      (envLookup st key).2 = true → atoi (envLookup st key).1 = none →
      parseDuration (envLookup st key).1 = none →
      innerDuration (envLookup st) key [v] = v ∧
      innerDuration (envLookup st) key [] = 0) ∧
    innerDuration (envLookup [("T", "5s")]) "T" [] = 5000000000 ∧
    innerDuration (envLookup [("T", "5")]) "T" [] = 5 ∧
    innerDuration (envLookup [("T", "bogus")]) "T" [7] = 7 ∧
    innerDuration (envLookup [("T", "bogus")]) "T" [] = 0 := by
  refine ⟨?_, ?_, ?_, by decide, by decide, by decide, by decide⟩
  · intro st key fb n h1 h2
    simp [innerDuration, h1, h2]
  · intro st key fb d h1 h2 h3
    simp [innerDuration, h1, h2, h3]
  · intro st key v h1 h2 h3
    constructor <;> simp [innerDuration, h1, h2, h3, firstOrDefault]

/-- Witness for C7: a stored plain integer takes the first parse path. -/
theorem claim7_duration_paths_witness :
    innerDuration (envLookup [("T", "7")]) "T" [] = 7 :=
  claim7_duration_paths.1 [("T", "7")] "T" [] 7 (by decide) (by decide)

/- ### Struct filling (C10) -/

theorem processTaggedAppend (lk : String → String × Bool)
    (l1 l2 : List (String × (String → Option String))) :
    processTagged lk (l1 ++ l2) =
      (match (processTagged lk l1).2 with
       | none => ((processTagged lk l1).1 ++ (processTagged lk l2).1,
                  (processTagged lk l2).2)
       | some msg => ((processTagged lk l1).1, some msg)) := by
  induction l1 with
  | nil => simp [processTagged]
  | cons p l1 ih =>
    obtain ⟨tag, conv⟩ := p
    cases hosv : (innerString lk tag [] != "") with
    | true =>
      cases hc : conv (innerString lk tag []) with
      | some v =>
        rw [List.cons_append]
        have hstep1 : processTagged lk ((tag, conv) :: (l1 ++ l2)) =
            ((tag, v) :: (processTagged lk (l1 ++ l2)).1,
             (processTagged lk (l1 ++ l2)).2) := by
          simp [processTagged, hosv, hc]
        have hstep2 : processTagged lk ((tag, conv) :: l1) =
            ((tag, v) :: (processTagged lk l1).1, (processTagged lk l1).2) := by
          simp [processTagged, hosv, hc]
        rw [hstep1, hstep2, ih]
        cases h2 : (processTagged lk l1).2 <;> simp [h2]
      | none =>
        simp [processTagged, hosv, hc]
    | false =>
      rw [List.cons_append]
      have hstep1 : processTagged lk ((tag, conv) :: (l1 ++ l2)) =
          processTagged lk (l1 ++ l2) := by
        simp [processTagged, hosv]
      have hstep2 : processTagged lk ((tag, conv) :: l1) =
          processTagged lk l1 := by
        simp [processTagged, hosv]
      rw [hstep1, hstep2, ih]

theorem fillFieldsEqProcess (lk : String → String × Bool) :
    ∀ (n : Nat) (fields : List GoField), sizeOf fields ≤ n →
      ∀ acc : List (String × String),
        fillFields lk fields acc =
          (acc ++ (processTagged lk (reachedTagged fields)).1,
           (processTagged lk (reachedTagged fields)).2) := by
  intro n
  induction n with
  | zero =>
    intro fields h acc
    cases fields with
    | nil => simp [fillFields, processTagged, reachedTagged]
    | cons f rest => simp at h
  | succ n ih =>
    intro fields h acc
    cases fields with
    | nil => simp [fillFields, processTagged, reachedTagged]
    | cons f rest =>
      cases f with
      | tagged tag conv =>
        have hrest : sizeOf rest ≤ n := by simp at h; omega
        cases hosv : (innerString lk tag [] != "") with
        | true =>
          cases hc : conv (innerString lk tag []) with
          | some v =>
            simp only [fillFields, hosv, if_true, hc]
            rw [ih rest hrest]
            simp [reachedTagged, processTagged, hosv, hc]
          | none =>
            simp [fillFields, reachedTagged, processTagged, hosv, hc]
        | false =>
          simp only [fillFields, hosv, Bool.false_eq_true, if_false]
          rw [ih rest hrest]
          simp [reachedTagged, processTagged, hosv]
      | structField fs =>
        have hfs : sizeOf fs ≤ n := by simp at h; omega
        have hrest : sizeOf rest ≤ n := by simp at h; omega
        simp only [fillFields]
        rw [ih fs hfs acc]
        have happ := processTaggedAppend lk (reachedTagged fs)
          (reachedTagged rest)
        cases hP1 : (processTagged lk (reachedTagged fs)).2 with
        | none =>
          rw [hP1] at happ
          simp only [reachedTagged, happ]
          rw [ih rest hrest]
          simp [List.append_assoc]
        | some msg =>
          rw [hP1] at happ
          simp [reachedTagged, happ]
      | ptrStruct nonNil fs =>
        have hfs : sizeOf fs ≤ n := by simp at h; omega
        have hrest : sizeOf rest ≤ n := by simp at h; omega
        cases nonNil with
        | true =>
          simp only [fillFields, if_true]
          rw [ih fs hfs acc]
          have happ := processTaggedAppend lk (reachedTagged fs)
            (reachedTagged rest)
          cases hP1 : (processTagged lk (reachedTagged fs)).2 with
          | none =>
            rw [hP1] at happ
            simp only [reachedTagged, if_true, happ]
            rw [ih rest hrest]
            simp [List.append_assoc]
          | some msg =>
            rw [hP1] at happ
            simp [reachedTagged, happ]
        | false =>
          simp only [fillFields, Bool.false_eq_true, if_false]
          rw [ih rest hrest]
          simp [reachedTagged]
      | plain =>
        have hrest : sizeOf rest ≤ n := by simp at h; omega
        simp only [fillFields]
        rw [ih rest hrest]
        simp [reachedTagged]

/-- Claim C10: `Fill` is not atomic on error — tagged fields are
processed in declaration order (recursing into untagged nested structs
and non-nil struct pointers as they are reached), and the first failing
conversion returns its error immediately while every tagged field
assigned before it keeps its value (no rollback); concretely, with fields
A (converts), B (conversion fails), C (converts), filling stops at B with
A's assignment kept and C untouched. -/
theorem claim10_fill_not_atomic :
    (∀ (lk : String → String × Bool) (fields : List GoField),
      goFill lk (some fields) = processTagged lk (reachedTagged fields)) ∧
    goFill (envLookup [("A", "1"), ("B", "x"), ("C", "9")])
        (some [GoField.tagged "A" (fun s => some s),
               GoField.tagged "B" (fun _ => none),
               GoField.tagged "C" (fun s => some s)]) =
      ([("A", "1")], some "B") := by
  have hgen : ∀ (lk : String → String × Bool) (fields : List GoField),
      goFill lk (some fields) = processTagged lk (reachedTagged fields) := by
    intro lk fields
    have h := fillFieldsEqProcess lk (sizeOf fields) fields (le_refl _) []
    simpa [goFill] using h
  refine ⟨hgen, ?_⟩
  rw [hgen]
  simp only [reachedTagged]
  decide

/-- Claim C9 (the code is at fault): the bounds check of a cursor advance
runs against the store seen BEFORE the read lock is taken, so when a
concurrent `Clean` empties the store between the check and the locked
reads, the read at index 0 is out of bounds (`none`, a panic in Go); with
no interleaved mutation the same advance can never read out of bounds. -/
theorem claim9_oob_read :
    (envIterStepRacy [("A", "1")] (envClean [("A", "1")]) 0).1 = none ∧
    (∀ (e : Env) (n : Nat), ((envIterStepRacy e e n).1).isSome = true) := by
  refine ⟨by decide, ?_⟩
  intro e n
  unfold envIterStepRacy
  by_cases h : n < e.length
  · rw [if_pos h, dif_pos h]
    rfl
  · rw [if_neg h]
    rfl
